import Mathlib

/-!
Shallow embedding of the rusty-simanneal simulated-annealing engine
(src/lib.rs, src/schedule.rs, src/metrics.rs).

Modelling conventions:
* `f64` energies, temperatures and probabilities are modelled as exact
  rationals (`ℚ`); `f64::exp` is modelled by an abstract function `expFn`
  carried in the operations record (theorems that need it assume
  `expFn 0 = 1`, which holds of the real `exp`).
* `f64::is_sign_positive` applied to an exactly computed difference is
  `0 ≤ d`: an exact zero difference is `+0.0` in IEEE arithmetic.
* The random generator is an abstract state `ρ` with `choose` (the
  `Transition::choose` call) and `gen_p` (the `rng.gen_range(0.0..=1.0)`
  draw), each returning the drawn value and the advanced generator.
* `std::time::Instant::now()` readings are modelled by an explicit
  environment input `clock : ℕ → ℚ` giving the wall-clock duration
  observed at each step; the engine does not control these values.
* The `&mut self` state of `Annealer` (its `state` and `metrics` fields)
  and the loop locals are threaded explicitly through `LoopSt`.
-/

/-- The per-step metrics record (src/metrics.rs, `Metrics`).
`step_duration` is a `Duration` in the source, modelled as a rational
number of seconds. -/
structure Metrics where
  best_energy : ℚ
  current_energy : ℚ
  next_energy : ℚ
  delta : ℚ
  accept : Bool
  improvement : Bool
  progress : ℚ
  temperature : ℚ
  step_duration : ℚ
deriving Repr, DecidableEq

/-- Progress::zero for the step counter `Step(usize)` of src/schedule.rs,
modelled as its inner `usize` counter, a bare `ℕ`. -/
def Step.zero : ℕ := 0

/-- Progress::update for the step counter: increment it. -/
def Step.update (s : ℕ) : ℕ := s + 1

/-- Progress::progress for the step counter:
`self.0 as f64 / maximum as f64`. -/
def Step.progress (s : ℕ) (maximum : ℕ) : ℚ := (s : ℚ) / (maximum : ℚ)

/-- Linear cooling schedule over a step counter
(src/schedule.rs, `LinearStepSchedule`). -/
structure LinearStepSchedule where
  t_max : ℚ
  t_min : ℚ
  max_steps : ℕ
deriving Repr

/-- Schedule::progress_0_1 for LinearStepSchedule. -/
def LinearStepSchedule.progress_0_1 (c : LinearStepSchedule) (p : ℕ) : ℚ :=
  Step.progress p c.max_steps

/-- Schedule::should_continue for LinearStepSchedule: `progress.0 < self.max_steps`. -/
def LinearStepSchedule.should_continue (c : LinearStepSchedule) (p : ℕ) : Bool :=
  p < c.max_steps

/-- Schedule::temperature for LinearStepSchedule:
`t_max - (t_max - t_min) * progress`. -/
def LinearStepSchedule.temperature (c : LinearStepSchedule) (p : ℕ) : ℚ :=
  c.t_max - (c.t_max - c.t_min) * Step.progress p c.max_steps

/-- Linear cooling schedule over wall-clock time
(src/schedule.rs, `LinearTimeSchedule`); the elapsed time
`progress.current - progress.start` is modelled as an explicit rational
input, since wall-clock readings are environment-supplied. -/
structure LinearTimeSchedule where
  t_max : ℚ
  t_min : ℚ
  max_time : ℚ

/-- Time::progress: `elapsed / total`. -/
def LinearTimeSchedule.progress_0_1 (c : LinearTimeSchedule) (elapsed : ℚ) : ℚ :=
  elapsed / c.max_time

/-- Schedule::temperature for LinearTimeSchedule:
`t_max - (t_max - t_min) * progress`. -/
def LinearTimeSchedule.temperature (c : LinearTimeSchedule) (elapsed : ℚ) : ℚ :=
  c.t_max - (c.t_max - c.t_min) * (elapsed / c.max_time)

/-- The capability surface a state type offers to the annealer: the
`EnergyMeasurable`, `Transition`, `AnnealingState`, `AnnealingStatePeeking`
and `AnnealingStateBack` trait methods of src/lib.rs, with context type `γ`,
state type `σ`, transition type `τ`, random-generator state `ρ`, and
restore-token type `re`.  `apply` is the functional reading of the in-place
`fn apply(&mut self, ...) -> Option<()>`: `none` means the transition is
inapplicable and the state is left unchanged. -/
structure AnnealOps (γ σ τ ρ re : Type) where
  energy : σ → γ → ℚ
  choose : ρ → γ → σ → τ × ρ
  gen_p : ρ → ℚ × ρ
  apply : σ → γ → τ → Option σ
  peek_energy : σ → γ → τ → ℚ → Option ℚ
  apply_with_restore : σ → γ → τ → Option (σ × re)
  back : σ → γ → re → σ
  expFn : ℚ → ℚ

/-- Model of `f64::is_sign_positive` on an exactly computed value: exact
zero differences arise as `+0.0`, so the sign is positive iff `0 ≤ d`. -/
def is_sign_positive (d : ℚ) : Bool := decide (0 ≤ d)

/-- The rejection condition shared verbatim by all three strategies:
`delta.is_sign_positive() && (-delta / temperature).exp() < p`. -/
def metropolis_reject (expFn : ℚ → ℚ) (delta temperature p : ℚ) : Bool :=
  is_sign_positive delta && decide (expFn (-delta / temperature) < p)

/-- The loop-local state of one annealing run: the annealer's `state` and
`metrics` fields plus the locals `best_state`, `best_energy`,
`current_energy`, `progress` and the random generator. -/
structure LoopSt (σ ρ : Type) where
  state : σ
  best_state : σ
  best_energy : ℚ
  current_energy : ℚ
  progress : ℕ
  rng : ρ
  metrics : List Metrics
deriving Repr

variable {γ σ τ ρ re : Type}

/-- One iteration of `Annealer::anneal` (src/lib.rs lines 281-335): clone
the previous state, choose a transition, apply it; on success update the
best-so-far (before the acceptance test, as the source does), run the
Metropolis test, roll back to the saved clone on rejection; on `None`
treat the step as `(accept, improvement) = (false, false)`; when `METRICS`
push one record; finally `progress.update()`. -/
def annealStep (ops : AnnealOps γ σ τ ρ re) (ctx : γ) (sch : LinearStepSchedule)
    (metricsOn : Bool) (clock : ℕ → ℚ) (st : LoopSt σ ρ) : LoopSt σ ρ :=
  let prev_state := st.state
  let chosen := ops.choose st.rng ctx st.state
  let op := chosen.1
  let res : Bool × Bool × LoopSt σ ρ :=
    match ops.apply st.state ctx op with
    | some nextState =>
      let temperature := sch.temperature st.progress
      let new_energy := ops.energy nextState ctx
      let bst : ℚ × σ × Bool :=
        if new_energy < st.best_energy then (new_energy, nextState, true)
        else (st.best_energy, st.best_state, false)
      let delta : ℚ := new_energy - st.current_energy
      let drawn := ops.gen_p chosen.2
      if metropolis_reject ops.expFn delta temperature drawn.1 then
        (false, bst.2.2,
          { st with state := prev_state, best_state := bst.2.1,
                    best_energy := bst.1, rng := drawn.2 })
      else
        (true, bst.2.2,
          { st with state := nextState, best_state := bst.2.1,
                    best_energy := bst.1, current_energy := new_energy,
                    rng := drawn.2 })
    | none => (false, false, { st with rng := chosen.2 })
  let st1 := res.2.2
  let st2 :=
    if metricsOn then
      { st1 with metrics := st1.metrics ++ [{
          best_energy := st1.best_energy,
          current_energy := st1.current_energy,
          next_energy := ops.energy st1.state ctx,
          delta := ops.energy st1.state ctx - st1.current_energy,
          accept := res.1,
          improvement := res.2.1,
          progress := sch.progress_0_1 st.progress,
          temperature := sch.temperature st.progress,
          step_duration := clock st.progress }] }
    else st1
  { st2 with progress := Step.update st.progress }

/-- One iteration of `Annealer::anneal_back` (src/lib.rs lines 351-368):
choose a transition, apply it destructively obtaining a restore token; run
the Metropolis test; on rejection call `back`, on acceptance update
`current_energy` and possibly the best-so-far.  The `METRICS` parameter of
`anneal_back` is never consulted by its body, so this step takes none. -/
def annealBackStep (ops : AnnealOps γ σ τ ρ re) (ctx : γ) (sch : LinearStepSchedule)
    (st : LoopSt σ ρ) : LoopSt σ ρ :=
  let chosen := ops.choose st.rng ctx st.state
  let op := chosen.1
  let st1 :=
    match ops.apply_with_restore st.state ctx op with
    | some applied =>
      let nextState := applied.1
      let restore := applied.2
      let temperature := sch.temperature st.progress
      let new_energy := ops.energy nextState ctx
      let delta : ℚ := new_energy - st.current_energy
      let drawn := ops.gen_p chosen.2
      if metropolis_reject ops.expFn delta temperature drawn.1 then
        { st with state := ops.back nextState ctx restore, rng := drawn.2 }
      else
        if new_energy < st.best_energy then
          { st with state := nextState, current_energy := new_energy,
                    best_energy := new_energy, best_state := nextState, rng := drawn.2 }
        else
          { st with state := nextState, current_energy := new_energy, rng := drawn.2 }
    | none => { st with rng := chosen.2 }
  { st1 with progress := Step.update st.progress }

/-- One iteration of `Annealer::anneal_peek` (src/lib.rs lines 385-406):
choose a transition, peek the candidate energy; if the Metropolis test
accepts, call `apply` and DISCARD its `Option` result (`none` leaves the
state unchanged), then set `current_energy` to the peeked energy and
possibly update the best-so-far.  The `METRICS` parameter of `anneal_peek`
is never consulted by its body, so this step takes none. -/
def annealPeekStep (ops : AnnealOps γ σ τ ρ re) (ctx : γ) (sch : LinearStepSchedule)
    (st : LoopSt σ ρ) : LoopSt σ ρ :=
  let chosen := ops.choose st.rng ctx st.state
  let op := chosen.1
  let st1 :=
    match ops.peek_energy st.state ctx op st.current_energy with
    | some new_energy =>
      let temperature := sch.temperature st.progress
      let delta : ℚ := new_energy - st.current_energy
      let drawn := ops.gen_p chosen.2
      if metropolis_reject ops.expFn delta temperature drawn.1 then
        { st with rng := drawn.2 }
      else
        let applied :=
          match ops.apply st.state ctx op with
          | some s2 => s2
          | none => st.state
        if new_energy < st.best_energy then
          { st with state := applied, current_energy := new_energy,
                    best_energy := new_energy, best_state := applied, rng := drawn.2 }
        else
          { st with state := applied, current_energy := new_energy, rng := drawn.2 }
    | none => { st with rng := chosen.2 }
  { st1 with progress := Step.update st.progress }

/-- The `while self.schedule.should_continue(&progress)` loop, with an
explicit fuel argument; each strategy's step advances `progress` by exactly
one, so fuel `max_steps` makes this the exact while-loop
(`runLoop_fuel_saturates` below proves the fuel bound is never the reason
the loop stops). -/
def runLoop (sch : LinearStepSchedule) (step : LoopSt σ ρ → LoopSt σ ρ) :
    ℕ → LoopSt σ ρ → LoopSt σ ρ
  | 0, st => st
  | fuel + 1, st =>
    if sch.should_continue st.progress then runLoop sch step fuel (step st) else st

/-- The state of an `Annealer` at the top of any of the three run
functions: `best_state`/`best_energy`/`current_energy` seeded from the
initial state's energy, `progress` at `Progress::zero()`, before any
transition is drawn. -/
def initLoopSt (ops : AnnealOps γ σ τ ρ re) (ctx : γ)
    (state0 : σ) (rng0 : ρ) (metrics0 : List Metrics) : LoopSt σ ρ :=
  let best_energy := ops.energy state0 ctx
  { state := state0, best_state := state0, best_energy := best_energy,
    current_energy := best_energy, progress := Step.zero, rng := rng0,
    metrics := metrics0 }

/-- `Annealer::anneal` as a state transformer: `metrics0` is the content of
`self.metrics` on entry, cleared first when `METRICS` is set; the result is
the final loop state (whose `best_state` the source returns and whose
`metrics` is the final `self.metrics`). -/
def annealRun (ops : AnnealOps γ σ τ ρ re) (ctx : γ) (sch : LinearStepSchedule)
    (metricsOn : Bool) (clock : ℕ → ℚ)
    (state0 : σ) (rng0 : ρ) (metrics0 : List Metrics) : LoopSt σ ρ :=
  runLoop sch (annealStep ops ctx sch metricsOn clock) sch.max_steps
    (initLoopSt ops ctx state0 rng0 (if metricsOn then [] else metrics0))

/-- The return value of `Annealer::anneal`: the best state found. -/
def anneal (ops : AnnealOps γ σ τ ρ re) (ctx : γ) (sch : LinearStepSchedule)
    (metricsOn : Bool) (clock : ℕ → ℚ)
    (state0 : σ) (rng0 : ρ) (metrics0 : List Metrics) : σ :=
  (annealRun ops ctx sch metricsOn clock state0 rng0 metrics0).best_state

/-- `Annealer::anneal_back` as a state transformer.  Its `METRICS` const
parameter is accepted but never read by the body: the metrics sequence is
neither cleared nor appended to. -/
def annealBackRun (ops : AnnealOps γ σ τ ρ re) (ctx : γ) (sch : LinearStepSchedule)
    (metricsOn : Bool) (state0 : σ) (rng0 : ρ) (metrics0 : List Metrics) : LoopSt σ ρ :=
  runLoop sch (annealBackStep ops ctx sch) sch.max_steps
    (initLoopSt ops ctx state0 rng0 metrics0)

/-- The return value of `Annealer::anneal_back`: the best state found. -/
def anneal_back (ops : AnnealOps γ σ τ ρ re) (ctx : γ) (sch : LinearStepSchedule)
    (metricsOn : Bool) (state0 : σ) (rng0 : ρ) (metrics0 : List Metrics) : σ :=
  (annealBackRun ops ctx sch metricsOn state0 rng0 metrics0).best_state

/-- `Annealer::anneal_peek` as a state transformer.  Its `METRICS` const
parameter is accepted but never read by the body. -/
def annealPeekRun (ops : AnnealOps γ σ τ ρ re) (ctx : γ) (sch : LinearStepSchedule)
    (metricsOn : Bool) (state0 : σ) (rng0 : ρ) (metrics0 : List Metrics) : LoopSt σ ρ :=
  runLoop sch (annealPeekStep ops ctx sch) sch.max_steps
    (initLoopSt ops ctx state0 rng0 metrics0)

/-- The return value of `Annealer::anneal_peek`: the best state found. -/
def anneal_peek (ops : AnnealOps γ σ τ ρ re) (ctx : γ) (sch : LinearStepSchedule)
    (metricsOn : Bool) (state0 : σ) (rng0 : ρ) (metrics0 : List Metrics) : σ :=
  (annealPeekRun ops ctx sch metricsOn state0 rng0 metrics0).best_state

/-- The invariant of §3 of the spec, stated over a loop state:
`best_energy` equals the energy of `best_state` and is at most
`current_energy`. -/
def BestInv (ops : AnnealOps γ σ τ ρ re) (ctx : γ) (st : LoopSt σ ρ) : Prop :=
  st.best_energy = ops.energy st.best_state ctx ∧ st.best_energy ≤ st.current_energy

/-- The internal consistency invariant of the clone strategy:
`current_energy` is the energy of the current state. -/
def EnergyInv (ops : AnnealOps γ σ τ ρ re) (ctx : γ) (st : LoopSt σ ρ) : Prop :=
  st.current_energy = ops.energy st.state ctx

/-- Agreement of two loop states on everything except the metrics log. -/
def SameCore (a b : LoopSt σ ρ) : Prop :=
  a.state = b.state ∧ a.best_state = b.best_state ∧ a.best_energy = b.best_energy ∧
    a.current_energy = b.current_energy ∧ a.progress = b.progress ∧ a.rng = b.rng

/-- A metrics record with its wall-clock field erased. -/
def Metrics.core (m : Metrics) : ℚ × ℚ × ℚ × ℚ × Bool × Bool × ℚ × ℚ :=
  (m.best_energy, m.current_energy, m.next_energy, m.delta,
    m.accept, m.improvement, m.progress, m.temperature)

/-- Agreement of two loop states on everything except the wall-clock
durations stored in their metrics logs. -/
def SameExceptDuration (a b : LoopSt σ ρ) : Prop :=
  SameCore a b ∧ a.metrics.map Metrics.core = b.metrics.map Metrics.core

/-- A concrete capability instance used to evaluate the engine on closed
inputs: the state is a rational, a transition adds its value to the state
(and is inapplicable when the value is zero, exercising the `None` paths),
the generator is a list of rationals popped by `choose` and `gen_p` alike,
and `expFn` is constantly one (so every draw `p ≤ 1` accepts). -/
def egOps : AnnealOps Unit ℚ ℚ (List ℚ) ℚ where
  energy := fun s _ => s
  choose := fun r _ _ => (r.headD 0, r.tail)
  gen_p := fun r => (r.headD 0, r.tail)
  apply := fun s _ t => if t = 0 then none else some (s + t)
  peek_energy := fun s _ t _ => if t = 0 then none else some (s + t)
  apply_with_restore := fun s _ t => if t = 0 then none else some (s + t, s)
  back := fun _ _ r => r
  expFn := fun _ => 1

/-- A variant of `egOps` whose `expFn` is constantly zero, so any
nonnegative delta is rejected whenever the drawn `p` is positive. -/
def egOpsR : AnnealOps Unit ℚ ℚ (List ℚ) ℚ :=
  { egOps with expFn := fun _ => 0 }

/-- A capability instance whose `peek_energy` reports a move as applicable
while `apply` refuses it, exercising the discarded-`Option` path of
`anneal_peek`. -/
def egOpsDiv : AnnealOps Unit ℚ ℚ (List ℚ) ℚ :=
  { egOps with
    apply := fun _ _ _ => none,
    peek_energy := fun s _ t _ => some (s + t) }

/-- A concrete loop state used to apply hypothesis-bearing theorems at a
closed input: energy 0 everywhere, generator stream `[2, 1]`. -/
def egSt : LoopSt ℚ (List ℚ) :=
  { state := 0, best_state := 0, best_energy := 0, current_energy := 0,
    progress := 0, rng := [2, 1], metrics := [] }

/-- A concrete metrics record used to seed nonempty metrics logs. -/
def egMetric : Metrics :=
  { best_energy := 7, current_energy := 7, next_energy := 7, delta := 7,
    accept := false, improvement := false, progress := 7, temperature := 7,
    step_duration := 7 }

/-! ## Basic facts about the step functions -/

theorem annealStep_progress (ops : AnnealOps γ σ τ ρ re) (ctx : γ)
    (sch : LinearStepSchedule) (metricsOn : Bool) (clock : ℕ → ℚ) (st : LoopSt σ ρ) :
    (annealStep ops ctx sch metricsOn clock st).progress = st.progress + 1 := by
  unfold annealStep
  cases h : ops.apply st.state ctx (ops.choose st.rng ctx st.state).1 <;>
    simp [h, Step.update]

theorem annealBackStep_progress (ops : AnnealOps γ σ τ ρ re) (ctx : γ)
    (sch : LinearStepSchedule) (st : LoopSt σ ρ) :
    (annealBackStep ops ctx sch st).progress = st.progress + 1 := by
  unfold annealBackStep
  cases h : ops.apply_with_restore st.state ctx (ops.choose st.rng ctx st.state).1 <;>
    simp [h, Step.update]

theorem annealPeekStep_progress (ops : AnnealOps γ σ τ ρ re) (ctx : γ)
    (sch : LinearStepSchedule) (st : LoopSt σ ρ) :
    (annealPeekStep ops ctx sch st).progress = st.progress + 1 := by
  unfold annealPeekStep
  cases h : ops.peek_energy st.state ctx (ops.choose st.rng ctx st.state).1 st.current_energy <;>
    simp [h, Step.update]

theorem annealBackStep_metrics (ops : AnnealOps γ σ τ ρ re) (ctx : γ)
    (sch : LinearStepSchedule) (st : LoopSt σ ρ) :
    (annealBackStep ops ctx sch st).metrics = st.metrics := by
  unfold annealBackStep
  cases h : ops.apply_with_restore st.state ctx (ops.choose st.rng ctx st.state).1 <;>
    simp [h] <;> split_ifs <;> rfl

theorem annealPeekStep_metrics (ops : AnnealOps γ σ τ ρ re) (ctx : γ)
    (sch : LinearStepSchedule) (st : LoopSt σ ρ) :
    (annealPeekStep ops ctx sch st).metrics = st.metrics := by
  unfold annealPeekStep
  cases h : ops.peek_energy st.state ctx (ops.choose st.rng ctx st.state).1 st.current_energy <;>
    simp [h] <;> split_ifs <;> rfl

theorem annealStep_metrics_len (ops : AnnealOps γ σ τ ρ re) (ctx : γ)
    (sch : LinearStepSchedule) (metricsOn : Bool) (clock : ℕ → ℚ) (st : LoopSt σ ρ) :
    (annealStep ops ctx sch metricsOn clock st).metrics.length =
      st.metrics.length + (if metricsOn then 1 else 0) := by
  unfold annealStep
  cases metricsOn <;>
    cases h : ops.apply st.state ctx (ops.choose st.rng ctx st.state).1 <;>
    simp [h] <;> split_ifs <;> simp

theorem annealStep_metrics_off (ops : AnnealOps γ σ τ ρ re) (ctx : γ)
    (sch : LinearStepSchedule) (clock : ℕ → ℚ) (st : LoopSt σ ρ) :
    (annealStep ops ctx sch false clock st).metrics = st.metrics := by
  unfold annealStep
  cases h : ops.apply st.state ctx (ops.choose st.rng ctx st.state).1 <;>
    simp [h] <;> split_ifs <;> rfl

/-! ## Generic facts about the while loop -/

theorem runLoop_stop (sch : LinearStepSchedule) (step : LoopSt σ ρ → LoopSt σ ρ)
    (fuel : ℕ) (st : LoopSt σ ρ) (h : sch.should_continue st.progress = false) :
    runLoop sch step fuel st = st := by
  cases fuel <;> simp [runLoop, h]

theorem runLoop_inv (sch : LinearStepSchedule) (step : LoopSt σ ρ → LoopSt σ ρ)
    (I : LoopSt σ ρ → Prop) (hstep : ∀ st, I st → I (step st)) :
    ∀ fuel st, I st → I (runLoop sch step fuel st) := by
  intro fuel
  induction fuel with
  | zero => intro st h; exact h
  | succ n ih =>
    intro st h
    unfold runLoop
    split
    · exact ih _ (hstep _ h)
    · exact h

theorem runLoop_rel (sch : LinearStepSchedule) (stepA stepB : LoopSt σ ρ → LoopSt σ ρ)
    (R : LoopSt σ ρ → LoopSt σ ρ → Prop) (I : LoopSt σ ρ → Prop)
    (hprog : ∀ a b, R a b → a.progress = b.progress)
    (hstep : ∀ a b, R a b → I a → R (stepA a) (stepB b))
    (hI : ∀ a, I a → I (stepA a)) :
    ∀ fuel a b, R a b → I a → R (runLoop sch stepA fuel a) (runLoop sch stepB fuel b) := by
  intro fuel
  induction fuel with
  | zero => intro a b hR _; exact hR
  | succ n ih =>
    intro a b hR hIa
    unfold runLoop
    rw [hprog a b hR]
    cases hc : sch.should_continue b.progress <;> simp only [hc, Bool.false_eq_true,
      if_false, if_true]
    · exact hR
    · exact ih _ _ (hstep a b hR hIa) (hI a hIa)

theorem runLoop_progress_exact (sch : LinearStepSchedule) (step : LoopSt σ ρ → LoopSt σ ρ)
    (hp : ∀ st, (step st).progress = st.progress + 1) :
    ∀ fuel st, st.progress + fuel = sch.max_steps →
      (runLoop sch step fuel st).progress = sch.max_steps := by
  intro fuel
  induction fuel with
  | zero => intro st h; simpa using h
  | succ n ih =>
    intro st h
    have hc : sch.should_continue st.progress = true := by
      simp only [LinearStepSchedule.should_continue, decide_eq_true_eq]
      omega
    unfold runLoop
    simp only [hc, if_true]
    exact ih (step st) (by rw [hp]; omega)

theorem runLoop_count (sch : LinearStepSchedule) (step : LoopSt σ ρ → LoopSt σ ρ)
    (hp : ∀ st, (step st).progress = st.progress + 1)
    (hm : ∀ st, (step st).metrics.length = st.metrics.length + 1) :
    ∀ fuel st, st.progress + fuel = sch.max_steps →
      (runLoop sch step fuel st).metrics.length = st.metrics.length + fuel := by
  intro fuel
  induction fuel with
  | zero => intro st h; simp [runLoop]
  | succ n ih =>
    intro st h
    have hc : sch.should_continue st.progress = true := by
      simp only [LinearStepSchedule.should_continue, decide_eq_true_eq]
      omega
    unfold runLoop
    simp only [hc, if_true]
    rw [ih (step st) (by rw [hp]; omega), hm]
    omega

theorem runLoop_fuel_saturates (sch : LinearStepSchedule) (step : LoopSt σ ρ → LoopSt σ ρ)
    (hp : ∀ st, (step st).progress = st.progress + 1) :
    ∀ fuel extra st, sch.max_steps ≤ st.progress + fuel →
      runLoop sch step (fuel + extra) st = runLoop sch step fuel st := by
  intro fuel
  induction fuel with
  | zero =>
    intro extra st h
    have hc : sch.should_continue st.progress = false := by
      simp only [LinearStepSchedule.should_continue, decide_eq_false_iff_not]
      omega
    rw [runLoop_stop sch step _ st hc, runLoop_stop sch step _ st hc]
  | succ n ih =>
    intro extra st h
    have he : n + 1 + extra = (n + extra) + 1 := by omega
    rw [he]
    unfold runLoop
    cases hc : sch.should_continue st.progress <;> simp only [hc, Bool.false_eq_true,
      if_false, if_true]
    exact ih extra (step st) (by rw [hp]; omega)

/-! ## The Metropolis rejection condition -/

theorem metropolis_reject_nonneg (e : ℚ → ℚ) (d T p : ℚ)
    (h : metropolis_reject e d T p = true) : 0 ≤ d := by
  simp only [metropolis_reject, is_sign_positive, Bool.and_eq_true, decide_eq_true_eq] at h
  exact h.1

theorem metropolis_reject_of_neg (e : ℚ → ℚ) (d T p : ℚ) (h : d < 0) :
    metropolis_reject e d T p = false := by
  simp only [metropolis_reject, is_sign_positive, Bool.and_eq_false_iff, decide_eq_false_iff_not]
  left
  simpa using h

theorem metropolis_reject_of_zero (e : ℚ → ℚ) (T p : ℚ) (he : e 0 = 1) (hp : p ≤ 1) :
    metropolis_reject e 0 T p = false := by
  simp only [metropolis_reject, is_sign_positive, Bool.and_eq_false_iff, decide_eq_false_iff_not]
  right
  rw [neg_zero, zero_div, he]
  simpa using hp

theorem metropolis_reject_pos_iff (e : ℚ → ℚ) (d T p : ℚ) (h : 0 ≤ d) :
    metropolis_reject e d T p = true ↔ e (-d / T) < p := by
  simp only [metropolis_reject, is_sign_positive, Bool.and_eq_true, decide_eq_true_eq]
  constructor
  · intro hh; exact hh.2
  · intro hh; exact ⟨h, hh⟩


/-! ## Preservation of the best-state invariant -/

theorem annealStep_bestInv (ops : AnnealOps γ σ τ ρ re) (ctx : γ)
    (sch : LinearStepSchedule) (metricsOn : Bool) (clock : ℕ → ℚ) (st : LoopSt σ ρ)
    (h : BestInv ops ctx st) :
    BestInv ops ctx (annealStep ops ctx sch metricsOn clock st) ∧
      (annealStep ops ctx sch metricsOn clock st).best_energy ≤ st.best_energy := by
  obtain ⟨h1, h2⟩ := h
  unfold BestInv annealStep
  cases ha : ops.apply st.state ctx (ops.choose st.rng ctx st.state).1 with
  | none =>
    cases metricsOn <;> simp only [ha] <;> exact ⟨⟨h1, h2⟩, le_refl _⟩
  | some ns =>
    simp only [ha]
    by_cases himp : ops.energy ns ctx < st.best_energy <;>
      by_cases hrej : metropolis_reject ops.expFn
        (ops.energy ns ctx - st.current_energy) (sch.temperature st.progress)
        (ops.gen_p (ops.choose st.rng ctx st.state).2).1
    · have hd := metropolis_reject_nonneg _ _ _ _ hrej
      cases metricsOn <;> simp only [himp, hrej, if_true, if_false, ite_true, ite_false] <;>
        exact ⟨⟨by trivial, by linarith⟩, le_of_lt himp⟩
    · cases metricsOn <;> simp only [himp, hrej, if_true, if_false, ite_true, ite_false,
        Bool.false_eq_true] <;>
        exact ⟨⟨by trivial, le_refl _⟩, le_of_lt himp⟩
    · cases metricsOn <;> simp only [himp, hrej, if_true, if_false, ite_true, ite_false] <;>
        exact ⟨⟨h1, h2⟩, le_refl _⟩
    · push_neg at himp
      cases metricsOn <;> simp only [hrej, Bool.false_eq_true, if_false, ite_false,
        if_neg (not_lt.mpr himp)] <;>
        exact ⟨⟨h1, himp⟩, le_refl _⟩

theorem annealBackStep_bestInv (ops : AnnealOps γ σ τ ρ re) (ctx : γ)
    (sch : LinearStepSchedule) (st : LoopSt σ ρ)
    (h : BestInv ops ctx st) :
    BestInv ops ctx (annealBackStep ops ctx sch st) ∧
      (annealBackStep ops ctx sch st).best_energy ≤ st.best_energy := by
  obtain ⟨h1, h2⟩ := h
  unfold BestInv annealBackStep
  cases ha : ops.apply_with_restore st.state ctx (ops.choose st.rng ctx st.state).1 with
  | none => simp only [ha]; exact ⟨⟨h1, h2⟩, le_refl _⟩
  | some pr =>
    simp only [ha]
    by_cases hrej : metropolis_reject ops.expFn
        (ops.energy pr.1 ctx - st.current_energy) (sch.temperature st.progress)
        (ops.gen_p (ops.choose st.rng ctx st.state).2).1
    · simp only [hrej, if_true, ite_true]
      exact ⟨⟨h1, h2⟩, le_refl _⟩
    · by_cases himp : ops.energy pr.1 ctx < st.best_energy <;>
        simp only [hrej, himp, Bool.false_eq_true, if_true, if_false, ite_true, ite_false]
      · exact ⟨⟨by trivial, le_refl _⟩, le_of_lt himp⟩
      · push_neg at himp
        exact ⟨⟨h1, himp⟩, le_refl _⟩

theorem annealStep_energyInv (ops : AnnealOps γ σ τ ρ re) (ctx : γ)
    (sch : LinearStepSchedule) (metricsOn : Bool) (clock : ℕ → ℚ) (st : LoopSt σ ρ)
    (h : EnergyInv ops ctx st) :
    EnergyInv ops ctx (annealStep ops ctx sch metricsOn clock st) := by
  unfold EnergyInv annealStep
  unfold EnergyInv at h
  cases ha : ops.apply st.state ctx (ops.choose st.rng ctx st.state).1 with
  | none => cases metricsOn <;> simp only [ha] <;> exact h
  | some ns =>
    simp only [ha]
    by_cases himp : ops.energy ns ctx < st.best_energy <;>
      by_cases hrej : metropolis_reject ops.expFn
        (ops.energy ns ctx - st.current_energy) (sch.temperature st.progress)
        (ops.gen_p (ops.choose st.rng ctx st.state).2).1 <;>
      cases metricsOn <;>
      simp only [himp, hrej, Bool.false_eq_true, if_true, if_false, ite_true, ite_false] <;>
      exact h

theorem annealStep_metrics_prop (ops : AnnealOps γ σ τ ρ re) (ctx : γ)
    (sch : LinearStepSchedule) (clock : ℕ → ℚ) (st : LoopSt σ ρ)
    (hE : EnergyInv ops ctx st) :
    ∀ m ∈ (annealStep ops ctx sch true clock st).metrics,
      m ∈ st.metrics ∨ (m.delta = 0 ∧ m.next_energy = m.current_energy) := by
  intro m hm
  unfold EnergyInv at hE
  unfold annealStep at hm
  cases ha : ops.apply st.state ctx (ops.choose st.rng ctx st.state).1 with
  | none =>
    simp only [ha, if_true, ite_true, List.mem_append, List.mem_singleton] at hm
    rcases hm with hm | hm
    · exact Or.inl hm
    · subst hm
      exact Or.inr ⟨by simp [hE], by simp [hE]⟩
  | some ns =>
    simp only [ha] at hm
    by_cases himp : ops.energy ns ctx < st.best_energy <;>
      by_cases hrej : metropolis_reject ops.expFn
        (ops.energy ns ctx - st.current_energy) (sch.temperature st.progress)
        (ops.gen_p (ops.choose st.rng ctx st.state).2).1 <;>
      simp only [himp, hrej, Bool.false_eq_true, if_true, if_false, ite_true, ite_false,
        List.mem_append, List.mem_singleton] at hm <;>
      rcases hm with hm | hm <;>
      first
      | exact Or.inl hm
      | (subst hm; exact Or.inr ⟨by simp [hE], by simp [hE]⟩)

/-! ## Lockstep correspondence of the three strategies -/

theorem annealStep_backStep_corr (ops : AnnealOps γ σ τ ρ re) (ctx : γ)
    (sch : LinearStepSchedule) (metricsOn : Bool) (clock : ℕ → ℚ)
    (hr1 : ∀ s op, (ops.apply_with_restore s ctx op).map Prod.fst = ops.apply s ctx op)
    (hr2 : ∀ s op ns r, ops.apply_with_restore s ctx op = some (ns, r) →
      ops.back ns ctx r = s)
    (a b : LoopSt σ ρ) (hR : SameCore a b) (hI : BestInv ops ctx a) :
    SameCore (annealStep ops ctx sch metricsOn clock a) (annealBackStep ops ctx sch b) := by
  obtain ⟨hb1, hb2⟩ := hI
  obtain ⟨h1, h2, h3, h4, h5, h6⟩ := hR
  cases a with
  | mk sa bsa bea cea pa ra ma =>
  cases b with
  | mk sb bsb beb ceb pb rb mb =>
  simp only at h1 h2 h3 h4 h5 h6 hb1 hb2
  subst h1 h2 h3 h4 h5 h6
  unfold annealStep annealBackStep
  cases hawr : ops.apply_with_restore sa ctx (ops.choose ra ctx sa).1 with
  | none =>
    have happ : ops.apply sa ctx (ops.choose ra ctx sa).1 = none := by
      rw [← hr1, hawr]; rfl
    cases metricsOn <;> simp only [hawr, happ] <;>
      exact ⟨rfl, rfl, rfl, rfl, rfl, rfl⟩
  | some pr =>
    have happ : ops.apply sa ctx (ops.choose ra ctx sa).1 = some pr.1 := by
      rw [← hr1, hawr]; rfl
    have hback : ops.back pr.1 ctx pr.2 = sa := hr2 _ _ pr.1 pr.2 (by rw [hawr])
    simp only [hawr, happ]
    by_cases hrej : metropolis_reject ops.expFn
        (ops.energy pr.1 ctx - cea) (sch.temperature pa)
        (ops.gen_p (ops.choose ra ctx sa).2).1
    · have hd := metropolis_reject_nonneg _ _ _ _ hrej
      have himp : ¬(ops.energy pr.1 ctx < bea) := by linarith
      cases metricsOn <;>
        simp only [hrej, himp, if_true, if_false, ite_true, ite_false, hback] <;>
        exact ⟨rfl, rfl, rfl, rfl, rfl, rfl⟩
    · by_cases himp : ops.energy pr.1 ctx < bea <;>
        cases metricsOn <;>
        simp only [hrej, himp, Bool.false_eq_true, if_true, if_false, ite_true, ite_false] <;>
        exact ⟨rfl, rfl, rfl, rfl, rfl, rfl⟩

theorem annealStep_peekStep_corr (ops : AnnealOps γ σ τ ρ re) (ctx : γ)
    (sch : LinearStepSchedule) (metricsOn : Bool) (clock : ℕ → ℚ)
    (hpk : ∀ s op e, ops.peek_energy s ctx op e =
      (ops.apply s ctx op).map (fun s2 => ops.energy s2 ctx))
    (a b : LoopSt σ ρ) (hR : SameCore a b) (hI : BestInv ops ctx a) :
    SameCore (annealStep ops ctx sch metricsOn clock a) (annealPeekStep ops ctx sch b) := by
  obtain ⟨hb1, hb2⟩ := hI
  obtain ⟨h1, h2, h3, h4, h5, h6⟩ := hR
  cases a with
  | mk sa bsa bea cea pa ra ma =>
  cases b with
  | mk sb bsb beb ceb pb rb mb =>
  simp only at h1 h2 h3 h4 h5 h6 hb1 hb2
  subst h1 h2 h3 h4 h5 h6
  unfold annealStep annealPeekStep
  cases happ : ops.apply sa ctx (ops.choose ra ctx sa).1 with
  | none =>
    have hpe : ops.peek_energy sa ctx (ops.choose ra ctx sa).1 cea = none := by
      rw [hpk, happ]; rfl
    cases metricsOn <;> simp only [happ, hpe] <;>
      exact ⟨rfl, rfl, rfl, rfl, rfl, rfl⟩
  | some ns =>
    have hpe : ops.peek_energy sa ctx (ops.choose ra ctx sa).1 cea =
        some (ops.energy ns ctx) := by
      rw [hpk, happ]; rfl
    simp only [happ, hpe]
    by_cases hrej : metropolis_reject ops.expFn
        (ops.energy ns ctx - cea) (sch.temperature pa)
        (ops.gen_p (ops.choose ra ctx sa).2).1
    · have hd := metropolis_reject_nonneg _ _ _ _ hrej
      have himp : ¬(ops.energy ns ctx < bea) := by linarith
      cases metricsOn <;>
        simp only [hrej, himp, if_true, if_false, ite_true, ite_false] <;>
        exact ⟨rfl, rfl, rfl, rfl, rfl, rfl⟩
    · by_cases himp : ops.energy ns ctx < bea <;>
        cases metricsOn <;>
        simp only [hrej, himp, happ, Bool.false_eq_true, if_true, if_false,
          ite_true, ite_false] <;>
        exact ⟨rfl, rfl, rfl, rfl, rfl, rfl⟩

theorem annealStep_clock_corr (ops : AnnealOps γ σ τ ρ re) (ctx : γ)
    (sch : LinearStepSchedule) (metricsOn : Bool) (c1 c2 : ℕ → ℚ)
    (a b : LoopSt σ ρ) (hR : SameExceptDuration a b) :
    SameExceptDuration (annealStep ops ctx sch metricsOn c1 a)
      (annealStep ops ctx sch metricsOn c2 b) := by
  obtain ⟨⟨h1, h2, h3, h4, h5, h6⟩, hm⟩ := hR
  cases a with
  | mk sa bsa bea cea pa ra ma =>
  cases b with
  | mk sb bsb beb ceb pb rb mb =>
  simp only at h1 h2 h3 h4 h5 h6 hm
  subst h1 h2 h3 h4 h5 h6
  unfold annealStep
  cases happ : ops.apply sa ctx (ops.choose ra ctx sa).1 with
  | none =>
    cases metricsOn <;> simp only [happ] <;>
      exact ⟨⟨rfl, rfl, rfl, rfl, rfl, rfl⟩,
        by simp [hm, Metrics.core]⟩
  | some ns =>
    simp only [happ]
    by_cases hrej : metropolis_reject ops.expFn
        (ops.energy ns ctx - cea) (sch.temperature pa)
        (ops.gen_p (ops.choose ra ctx sa).2).1 <;>
      by_cases himp : ops.energy ns ctx < bea <;>
      cases metricsOn <;>
      simp only [hrej, himp, Bool.false_eq_true, if_true, if_false, ite_true, ite_false] <;>
      exact ⟨⟨rfl, rfl, rfl, rfl, rfl, rfl⟩,
        by simp [hm, Metrics.core]⟩

theorem runLoop_metrics_prop (sch : LinearStepSchedule) (step : LoopSt σ ρ → LoopSt σ ρ)
    (I : LoopSt σ ρ → Prop) (P : Metrics → Prop)
    (hI : ∀ st, I st → I (step st))
    (hstep : ∀ st, I st → ∀ m ∈ (step st).metrics, m ∈ st.metrics ∨ P m) :
    ∀ fuel st, I st → (∀ m ∈ st.metrics, P m) →
      ∀ m ∈ (runLoop sch step fuel st).metrics, P m := by
  intro fuel
  induction fuel with
  | zero => intro st _ hbase m hm; exact hbase m hm
  | succ n ih =>
    intro st hIst hbase
    unfold runLoop
    split
    · refine ih (step st) (hI st hIst) ?_
      intro m hm
      rcases hstep st hIst m hm with hm2 | hm2
      · exact hbase m hm2
      · exact hm2
    · exact hbase

/-! ## Claim theorems -/

/-- Claim C9: for LinearStepSchedule (and LinearTimeSchedule),
temperature(progress) equals `t_max - (t_max - t_min) * fraction`; the
temperature at zero progress is t_max, at full progress it is t_min, and
it is non-increasing in progress whenever t_max >= t_min. -/
theorem linear_schedule_temperature (c : LinearStepSchedule) (ct : LinearTimeSchedule) :
    (∀ p : ℕ, c.temperature p = c.t_max - (c.t_max - c.t_min) * Step.progress p c.max_steps) ∧
    c.temperature Step.zero = c.t_max ∧
    (0 < c.max_steps → c.temperature c.max_steps = c.t_min) ∧
    (c.t_min ≤ c.t_max → ∀ p q : ℕ, p ≤ q → c.temperature q ≤ c.temperature p) ∧
    (∀ e : ℚ, ct.temperature e = ct.t_max - (ct.t_max - ct.t_min) * (e / ct.max_time)) ∧
    ct.temperature 0 = ct.t_max ∧
    (ct.max_time ≠ 0 → ct.temperature ct.max_time = ct.t_min) ∧
    (ct.t_min ≤ ct.t_max → 0 < ct.max_time → ∀ e1 e2 : ℚ, e1 ≤ e2 →
      ct.temperature e2 ≤ ct.temperature e1) := by
  refine ⟨fun p => rfl, ?_, ?_, ?_, fun e => rfl, ?_, ?_, ?_⟩
  · simp [LinearStepSchedule.temperature, Step.progress, Step.zero]
  · intro h
    have hz : (c.max_steps : ℚ) ≠ 0 := by exact_mod_cast Nat.pos_iff_ne_zero.mp h
    unfold LinearStepSchedule.temperature Step.progress
    rw [div_self hz]
    ring
  · intro hmm p q hpq
    unfold LinearStepSchedule.temperature Step.progress
    have hd : 0 ≤ c.t_max - c.t_min := by linarith
    have hfrac : (p : ℚ) / (c.max_steps : ℚ) ≤ (q : ℚ) / (c.max_steps : ℚ) := by
      rcases Nat.eq_zero_or_pos c.max_steps with h0 | h0
      · simp [h0]
      · have hpos : (0 : ℚ) < (c.max_steps : ℚ) := by exact_mod_cast h0
        exact (div_le_div_right hpos).mpr (by exact_mod_cast hpq)
    nlinarith [mul_le_mul_of_nonneg_left hfrac hd]
  · simp [LinearTimeSchedule.temperature]
  · intro h
    unfold LinearTimeSchedule.temperature
    rw [div_self h]
    ring
  · intro hmm hpos e1 e2 h12
    unfold LinearTimeSchedule.temperature
    have hd : 0 ≤ ct.t_max - ct.t_min := by linarith
    have hfrac : e1 / ct.max_time ≤ e2 / ct.max_time :=
      (div_le_div_right hpos).mpr h12
    nlinarith [mul_le_mul_of_nonneg_left hfrac hd]

/-- Witness for C9: the hypotheses hold and the temperature facts evaluate
at the schedule (t_max 10, t_min 1, maximum 4). -/
theorem linear_schedule_temperature_witness :
    LinearStepSchedule.temperature ⟨10, 1, 4⟩ 2 ≤ LinearStepSchedule.temperature ⟨10, 1, 4⟩ 1 ∧
    LinearStepSchedule.temperature ⟨10, 1, 4⟩ 4 = 1 ∧
    LinearTimeSchedule.temperature ⟨10, 1, 4⟩ 4 = 1 ∧
    LinearTimeSchedule.temperature ⟨10, 1, 4⟩ 3 ≤ LinearTimeSchedule.temperature ⟨10, 1, 4⟩ 2 :=
  ⟨(linear_schedule_temperature ⟨10, 1, 4⟩ ⟨10, 1, 4⟩).2.2.2.1 (by norm_num) 1 2 (by norm_num),
   (linear_schedule_temperature ⟨10, 1, 4⟩ ⟨10, 1, 4⟩).2.2.1 (by norm_num),
   (linear_schedule_temperature ⟨10, 1, 4⟩ ⟨10, 1, 4⟩).2.2.2.2.2.2.1 (by norm_num),
   (linear_schedule_temperature ⟨10, 1, 4⟩ ⟨10, 1, 4⟩).2.2.2.2.2.2.2 (by norm_num)
     (by norm_num) 2 3 (by norm_num)⟩

theorem Step.update_iterate (n m : ℕ) : Nat.iterate Step.update n m = m + n := by
  induction n generalizing m with
  | zero => simp
  | succ k ih =>
    rw [Function.iterate_succ_apply, ih]
    unfold Step.update
    omega

/-- Claim C8: for the step schedule, should_continue(progress) is true
exactly while the counter is strictly below max_steps and becomes false
after exactly max_steps advances from zero; every run driven by
LinearStepSchedule terminates with progress exactly max_steps, i.e. after
exactly max_steps loop iterations (each iteration advances progress once,
and a metrics-enabled anneal run records exactly one entry per
iteration). -/
theorem step_schedule_runs_exactly_max_steps (ops : AnnealOps γ σ τ ρ re) (ctx : γ)
    (sch : LinearStepSchedule) (metricsOn : Bool) (clock : ℕ → ℚ)
    (state0 : σ) (rng0 : ρ) (metrics0 : List Metrics) :
    (∀ p : ℕ, sch.should_continue p = true ↔ p < sch.max_steps) ∧
    sch.should_continue (Nat.iterate Step.update sch.max_steps Step.zero) = false ∧
    (annealRun ops ctx sch metricsOn clock state0 rng0 metrics0).progress = sch.max_steps ∧
    (annealBackRun ops ctx sch metricsOn state0 rng0 metrics0).progress = sch.max_steps ∧
    (annealPeekRun ops ctx sch metricsOn state0 rng0 metrics0).progress = sch.max_steps ∧
    (annealRun ops ctx sch true clock state0 rng0 metrics0).metrics.length = sch.max_steps := by
  refine ⟨?_, ?_, ?_, ?_, ?_, ?_⟩
  · intro p
    simp [LinearStepSchedule.should_continue]
  · rw [Step.update_iterate]
    simp [LinearStepSchedule.should_continue, Step.zero]
  · exact runLoop_progress_exact sch _ (annealStep_progress ops ctx sch metricsOn clock)
      sch.max_steps _ (by simp [initLoopSt, Step.zero])
  · exact runLoop_progress_exact sch _ (annealBackStep_progress ops ctx sch)
      sch.max_steps _ (by simp [initLoopSt, Step.zero])
  · exact runLoop_progress_exact sch _ (annealPeekStep_progress ops ctx sch)
      sch.max_steps _ (by simp [initLoopSt, Step.zero])
  · have hlen := runLoop_count sch (annealStep ops ctx sch true clock)
      (annealStep_progress ops ctx sch true clock)
      (fun st => by simpa using annealStep_metrics_len ops ctx sch true clock st)
      sch.max_steps (initLoopSt ops ctx state0 rng0 (if true then [] else metrics0))
      (by simp [initLoopSt, Step.zero])
    simpa [annealRun, initLoopSt] using hlen

/-- Witness for C8: a concrete two-step run of each strategy finishes with
progress 2, and the metrics-enabled clone run records 2 entries. -/
theorem step_schedule_runs_exactly_max_steps_witness :
    (annealRun egOps () ⟨1, 0, 2⟩ false (fun _ => 0) 0 [2, 1, 3, 1] []).progress = 2 ∧
    (annealBackRun egOps () ⟨1, 0, 2⟩ false 0 [2, 1, 3, 1] []).progress = 2 ∧
    (annealRun egOps () ⟨1, 0, 2⟩ true (fun _ => 0) 0 [2, 1, 3, 1] []).metrics.length = 2 :=
  ⟨(step_schedule_runs_exactly_max_steps egOps () ⟨1, 0, 2⟩ false (fun _ => 0)
      0 [2, 1, 3, 1] []).2.2.1,
   (step_schedule_runs_exactly_max_steps egOps () ⟨1, 0, 2⟩ false (fun _ => 0)
      0 [2, 1, 3, 1] []).2.2.2.1,
   (step_schedule_runs_exactly_max_steps egOps () ⟨1, 0, 2⟩ false (fun _ => 0)
      0 [2, 1, 3, 1] []).2.2.2.2.2⟩

/-- Claim C3: in every strategy, a None from the move-application call
(apply, apply_with_restore, or peek_energy) makes the step a no-op
rejection: the Metropolis draw is not consumed (the generator is exactly
as `choose` left it), no energy comparison occurs, state, current_energy,
best_state and best_energy are unchanged, no error is surfaced (the step
functions are total), and progress still advances by one unit. -/
theorem inapplicable_transition_is_noop (ops : AnnealOps γ σ τ ρ re) (ctx : γ)
    (sch : LinearStepSchedule) (metricsOn : Bool) (clock : ℕ → ℚ) (st : LoopSt σ ρ)
    (op : τ) (r1 : ρ) (hc : ops.choose st.rng ctx st.state = (op, r1)) :
    (ops.apply st.state ctx op = none →
      (annealStep ops ctx sch metricsOn clock st).state = st.state ∧
      (annealStep ops ctx sch metricsOn clock st).current_energy = st.current_energy ∧
      (annealStep ops ctx sch metricsOn clock st).best_state = st.best_state ∧
      (annealStep ops ctx sch metricsOn clock st).best_energy = st.best_energy ∧
      (annealStep ops ctx sch metricsOn clock st).rng = r1 ∧
      (annealStep ops ctx sch metricsOn clock st).progress = st.progress + 1) ∧
    (ops.apply_with_restore st.state ctx op = none →
      (annealBackStep ops ctx sch st).state = st.state ∧
      (annealBackStep ops ctx sch st).current_energy = st.current_energy ∧
      (annealBackStep ops ctx sch st).best_state = st.best_state ∧
      (annealBackStep ops ctx sch st).best_energy = st.best_energy ∧
      (annealBackStep ops ctx sch st).rng = r1 ∧
      (annealBackStep ops ctx sch st).metrics = st.metrics ∧
      (annealBackStep ops ctx sch st).progress = st.progress + 1) ∧
    (ops.peek_energy st.state ctx op st.current_energy = none →
      (annealPeekStep ops ctx sch st).state = st.state ∧
      (annealPeekStep ops ctx sch st).current_energy = st.current_energy ∧
      (annealPeekStep ops ctx sch st).best_state = st.best_state ∧
      (annealPeekStep ops ctx sch st).best_energy = st.best_energy ∧
      (annealPeekStep ops ctx sch st).rng = r1 ∧
      (annealPeekStep ops ctx sch st).metrics = st.metrics ∧
      (annealPeekStep ops ctx sch st).progress = st.progress + 1) := by
  refine ⟨?_, ?_, ?_⟩ <;> intro h
  · unfold annealStep
    cases metricsOn <;> simp [hc, h, Step.update]
  · unfold annealBackStep
    simp [hc, h, Step.update]
  · unfold annealPeekStep
    simp [hc, h, Step.update]

/-- Witness for C3: the zero transition of the example instance is
inapplicable and the step leaves everything but progress unchanged. -/
theorem inapplicable_transition_is_noop_witness :
    egOps.apply egSt.state () 0 = none ∧
    (annealStep egOps () ⟨1, 0, 2⟩ true (fun _ => 0)
      { egSt with rng := [0, 9] }).current_energy = egSt.current_energy := by
  have h := inapplicable_transition_is_noop egOps () ⟨1, 0, 2⟩ true (fun _ => 0)
    { egSt with rng := [0, 9] } 0 [9] (by simp [egOps, egSt]) 
  exact ⟨by simp [egOps, egSt], (h.1 (by simp [egOps, egSt])).2.1⟩

/-- Claim C1: every strategy applies one Metropolis rule to an applicable
candidate: with the uniform draw p in [0,1] (and expFn 0 = 1, as for the
f64 exp), a delta <= 0 is always accepted, a positive delta is rejected
iff expFn(-delta/temperature) < p, and in each of annealStep,
annealBackStep and annealPeekStep the applicable candidate's energy
becomes current_energy exactly when the shared rejection test is false. -/
theorem metropolis_acceptance_rule (ops : AnnealOps γ σ τ ρ re) (ctx : γ)
    (sch : LinearStepSchedule) (metricsOn : Bool) (clock : ℕ → ℚ) (st : LoopSt σ ρ)
    (op : τ) (r1 : ρ) (p : ℚ) (r2 : ρ)
    (hc : ops.choose st.rng ctx st.state = (op, r1))
    (hg : ops.gen_p r1 = (p, r2))
    (hp0 : 0 ≤ p) (hp1 : p ≤ 1) (hexp : ops.expFn 0 = 1) :
    (∀ delta T : ℚ, delta ≤ 0 → metropolis_reject ops.expFn delta T p = false) ∧
    (∀ delta T : ℚ, 0 < delta →
      (metropolis_reject ops.expFn delta T p = true ↔ ops.expFn (-delta / T) < p)) ∧
    (∀ ns : σ, ops.apply st.state ctx op = some ns →
      (annealStep ops ctx sch metricsOn clock st).current_energy =
        if metropolis_reject ops.expFn (ops.energy ns ctx - st.current_energy)
            (sch.temperature st.progress) p
        then st.current_energy else ops.energy ns ctx) ∧
    (∀ pr : σ × re, ops.apply_with_restore st.state ctx op = some pr →
      (annealBackStep ops ctx sch st).current_energy =
        if metropolis_reject ops.expFn (ops.energy pr.1 ctx - st.current_energy)
            (sch.temperature st.progress) p
        then st.current_energy else ops.energy pr.1 ctx) ∧
    (∀ ne : ℚ, ops.peek_energy st.state ctx op st.current_energy = some ne →
      (annealPeekStep ops ctx sch st).current_energy =
        if metropolis_reject ops.expFn (ne - st.current_energy)
            (sch.temperature st.progress) p
        then st.current_energy else ne) := by
  refine ⟨?_, ?_, ?_, ?_, ?_⟩
  · intro delta T hd
    rcases lt_or_eq_of_le hd with h | h
    · exact metropolis_reject_of_neg _ _ _ _ h
    · subst h
      exact metropolis_reject_of_zero _ _ _ hexp hp1
  · intro delta T hd
    exact metropolis_reject_pos_iff _ _ _ _ (le_of_lt hd)
  · intro ns ha
    unfold annealStep
    by_cases himp : ops.energy ns ctx < st.best_energy <;>
      by_cases hrej : metropolis_reject ops.expFn (ops.energy ns ctx - st.current_energy)
        (sch.temperature st.progress) p <;>
      cases metricsOn <;>
      simp [hc, hg, ha, himp, hrej]
  · intro pr ha
    unfold annealBackStep
    by_cases himp : ops.energy pr.1 ctx < st.best_energy <;>
      by_cases hrej : metropolis_reject ops.expFn (ops.energy pr.1 ctx - st.current_energy)
        (sch.temperature st.progress) p <;>
      simp [hc, hg, ha, himp, hrej]
  · intro ne ha
    unfold annealPeekStep
    by_cases himp : ne < st.best_energy <;>
      by_cases hrej : metropolis_reject ops.expFn (ne - st.current_energy)
        (sch.temperature st.progress) p <;>
      simp [hc, hg, ha, himp, hrej]

/-- Witness for C1 at the example instance with draw p = 1: a negative
delta is never rejected, the positive-delta rejection test evaluates, and
the clone step accepts the applicable candidate of energy 2. -/
theorem metropolis_acceptance_rule_witness :
    metropolis_reject egOps.expFn (-3) 1 1 = false ∧
    (metropolis_reject egOps.expFn 2 1 1 = true ↔ egOps.expFn (-2 / 1) < 1) ∧
    (annealStep egOps () ⟨1, 0, 2⟩ false (fun _ => 0) egSt).current_energy =
      if metropolis_reject egOps.expFn (egOps.energy 2 () - egSt.current_energy)
          (LinearStepSchedule.temperature ⟨1, 0, 2⟩ egSt.progress) 1
      then egSt.current_energy else egOps.energy 2 () := by
  have h := metropolis_acceptance_rule egOps () ⟨1, 0, 2⟩ false (fun _ => 0) egSt
    2 [1] 1 [] (by simp [egOps, egSt]) (by simp [egOps]) (by norm_num) (by norm_num)
    (by simp [egOps])
  exact ⟨h.1 (-3) 1 (by norm_num), h.2.1 2 1 (by norm_num),
    h.2.2.1 2 (by norm_num [egOps, egSt])⟩

/-- Claim C10: in anneal_peek, once peek_energy returns Some and the
Metropolis test accepts, the Option result of the subsequent apply call is
discarded: even when apply returns None and leaves the state unchanged,
the step is treated as accepted unconditionally, current_energy is set to
the peeked energy and the best may be updated from it, so after such a
step current_energy need no longer equal the state's energy. -/
theorem peek_accept_discards_apply (ops : AnnealOps γ σ τ ρ re) (ctx : γ)
    (sch : LinearStepSchedule) (st : LoopSt σ ρ)
    (op : τ) (r1 : ρ) (p : ℚ) (r2 : ρ) (ne : ℚ)
    (hc : ops.choose st.rng ctx st.state = (op, r1))
    (hg : ops.gen_p r1 = (p, r2))
    (hpe : ops.peek_energy st.state ctx op st.current_energy = some ne)
    (hacc : metropolis_reject ops.expFn (ne - st.current_energy)
      (sch.temperature st.progress) p = false)
    (happ : ops.apply st.state ctx op = none) :
    (annealPeekStep ops ctx sch st).state = st.state ∧
    (annealPeekStep ops ctx sch st).current_energy = ne ∧
    (annealPeekStep ops ctx sch st).best_energy =
      (if ne < st.best_energy then ne else st.best_energy) ∧
    (ne ≠ ops.energy st.state ctx →
      (annealPeekStep ops ctx sch st).current_energy ≠
        ops.energy (annealPeekStep ops ctx sch st).state ctx) := by
  have h1 : (annealPeekStep ops ctx sch st).state = st.state ∧
      (annealPeekStep ops ctx sch st).current_energy = ne ∧
      (annealPeekStep ops ctx sch st).best_energy =
        (if ne < st.best_energy then ne else st.best_energy) := by
    unfold annealPeekStep
    by_cases himp : ne < st.best_energy <;> simp [hc, hg, hpe, hacc, happ, himp]
  refine ⟨h1.1, h1.2.1, h1.2.2, ?_⟩
  intro hne
  rw [h1.2.1, h1.1]
  exact hne

/-- Witness for C10: with an instance whose peek reports energy 2 for a
move that apply refuses, the accepted peek step leaves the state at its
old value while current_energy becomes 2, the peeked energy. -/
theorem peek_accept_discards_apply_witness :
    (annealPeekStep egOpsDiv () ⟨1, 0, 2⟩ egSt).state = egSt.state ∧
    (annealPeekStep egOpsDiv () ⟨1, 0, 2⟩ egSt).current_energy = 2 ∧
    (annealPeekStep egOpsDiv () ⟨1, 0, 2⟩ egSt).current_energy ≠
      egOpsDiv.energy (annealPeekStep egOpsDiv () ⟨1, 0, 2⟩ egSt).state () := by
  have h := peek_accept_discards_apply egOpsDiv () ⟨1, 0, 2⟩ egSt 2 [1] 1 [] 2
    (by simp [egOpsDiv, egOps, egSt]) (by simp [egOpsDiv, egOps])
    (by norm_num [egOpsDiv, egOps, egSt])
    (by norm_num [metropolis_reject, is_sign_positive, egOpsDiv, egOps, egSt,
      LinearStepSchedule.temperature, Step.progress])
    (by simp [egOpsDiv, egSt])
  exact ⟨h.1, h.2.1, h.2.2.2 (by norm_num [egOpsDiv, egOps, egSt])⟩

/-- Claim C2: in anneal and anneal_back, best is seeded from the initial
state's energy before any transition is drawn; at every observation point
best_energy equals energy(best_state) and best_energy <= current_energy
(BestInv); best_energy is non-increasing across steps; each run returns
best_state (never the possibly-worse final current state), so the returned
state's energy is at most the initial state's energy. -/
theorem best_tracking_invariant (ops : AnnealOps γ σ τ ρ re) (ctx : γ)
    (sch : LinearStepSchedule) (metricsOn : Bool) (clock : ℕ → ℚ)
    (state0 : σ) (rng0 : ρ) (metrics0 : List Metrics) :
    (initLoopSt ops ctx state0 rng0 metrics0).best_state = state0 ∧
    (initLoopSt ops ctx state0 rng0 metrics0).best_energy = ops.energy state0 ctx ∧
    (initLoopSt ops ctx state0 rng0 metrics0).current_energy = ops.energy state0 ctx ∧
    BestInv ops ctx (initLoopSt ops ctx state0 rng0 metrics0) ∧
    (∀ st : LoopSt σ ρ, BestInv ops ctx st →
      BestInv ops ctx (annealStep ops ctx sch metricsOn clock st) ∧
      (annealStep ops ctx sch metricsOn clock st).best_energy ≤ st.best_energy) ∧
    (∀ st : LoopSt σ ρ, BestInv ops ctx st →
      BestInv ops ctx (annealBackStep ops ctx sch st) ∧
      (annealBackStep ops ctx sch st).best_energy ≤ st.best_energy) ∧
    BestInv ops ctx (annealRun ops ctx sch metricsOn clock state0 rng0 metrics0) ∧
    BestInv ops ctx (annealBackRun ops ctx sch metricsOn state0 rng0 metrics0) ∧
    anneal ops ctx sch metricsOn clock state0 rng0 metrics0 =
      (annealRun ops ctx sch metricsOn clock state0 rng0 metrics0).best_state ∧
    anneal_back ops ctx sch metricsOn state0 rng0 metrics0 =
      (annealBackRun ops ctx sch metricsOn state0 rng0 metrics0).best_state ∧
    ops.energy (anneal ops ctx sch metricsOn clock state0 rng0 metrics0) ctx ≤
      ops.energy state0 ctx ∧
    ops.energy (anneal_back ops ctx sch metricsOn state0 rng0 metrics0) ctx ≤
      ops.energy state0 ctx := by
  have hstep := annealStep_bestInv ops ctx sch metricsOn clock
  have hbstep := annealBackStep_bestInv ops ctx sch
  have hIinit : ∀ ms : List Metrics,
      BestInv ops ctx (initLoopSt ops ctx state0 rng0 ms) ∧
      (initLoopSt ops ctx state0 rng0 ms).best_energy ≤ ops.energy state0 ctx := by
    intro ms
    exact ⟨⟨rfl, le_refl _⟩, le_refl _⟩
  have hrunA : BestInv ops ctx (annealRun ops ctx sch metricsOn clock state0 rng0 metrics0) ∧
      (annealRun ops ctx sch metricsOn clock state0 rng0 metrics0).best_energy ≤
        ops.energy state0 ctx := by
    refine runLoop_inv sch _ (fun st => BestInv ops ctx st ∧
      st.best_energy ≤ ops.energy state0 ctx) ?_ sch.max_steps _ (hIinit _)
    intro st hI
    exact ⟨(hstep st hI.1).1, le_trans (hstep st hI.1).2 hI.2⟩
  have hrunB : BestInv ops ctx (annealBackRun ops ctx sch metricsOn state0 rng0 metrics0) ∧
      (annealBackRun ops ctx sch metricsOn state0 rng0 metrics0).best_energy ≤
        ops.energy state0 ctx := by
    refine runLoop_inv sch _ (fun st => BestInv ops ctx st ∧
      st.best_energy ≤ ops.energy state0 ctx) ?_ sch.max_steps _ (hIinit _)
    intro st hI
    exact ⟨(hbstep st hI.1).1, le_trans (hbstep st hI.1).2 hI.2⟩
  refine ⟨rfl, rfl, rfl, (hIinit metrics0).1, hstep, hbstep, hrunA.1, hrunB.1, rfl, rfl, ?_, ?_⟩
  · have h1 := hrunA.1.1
    have h2 := hrunA.2
    unfold anneal
    linarith [h1, h2]
  · have h1 := hrunB.1.1
    have h2 := hrunB.2
    unfold anneal_back
    linarith [h1, h2]

/-- Witness for C2: the invariant holds of the example start state and is
preserved by one clone-strategy and one restore-strategy step from it. -/
theorem best_tracking_invariant_witness :
    BestInv egOps () egSt ∧
    BestInv egOps () (annealStep egOps () ⟨1, 0, 2⟩ false (fun _ => 0) egSt) ∧
    BestInv egOps () (annealBackStep egOps () ⟨1, 0, 2⟩ egSt) := by
  have h := best_tracking_invariant egOps () ⟨1, 0, 2⟩ false (fun _ => 0) 0 [2, 1] []
  have hInv : BestInv egOps () egSt := ⟨by simp [egOps, egSt], by simp [egOps, egSt]⟩
  exact ⟨hInv, (h.2.2.2.2.1 egSt hInv).1, (h.2.2.2.2.2.1 egSt hInv).1⟩

/-- Claim C6 (amended): only anneal implements the metrics switch: with
metrics enabled it clears the log at run start and appends exactly one
record per step, so the final length equals max_steps; with metrics
disabled it leaves the log untouched.  anneal_back and anneal_peek accept
the flag but never clear nor append, whatever its value. -/
theorem metrics_cardinality (ops : AnnealOps γ σ τ ρ re) (ctx : γ)
    (sch : LinearStepSchedule) (clock : ℕ → ℚ) (m1 m2 : Bool)
    (state0 : σ) (rng0 : ρ) (metrics0 : List Metrics) :
    (annealRun ops ctx sch true clock state0 rng0 metrics0).metrics.length = sch.max_steps ∧
    (annealRun ops ctx sch false clock state0 rng0 metrics0).metrics = metrics0 ∧
    (annealBackRun ops ctx sch m1 state0 rng0 metrics0).metrics = metrics0 ∧
    (annealPeekRun ops ctx sch m2 state0 rng0 metrics0).metrics = metrics0 := by
  refine ⟨?_, ?_, ?_, ?_⟩
  · have hlen := runLoop_count sch (annealStep ops ctx sch true clock)
      (annealStep_progress ops ctx sch true clock)
      (fun st => by simpa using annealStep_metrics_len ops ctx sch true clock st)
      sch.max_steps (initLoopSt ops ctx state0 rng0 (if true then [] else metrics0))
      (by simp [initLoopSt, Step.zero])
    simpa [annealRun, initLoopSt] using hlen
  · exact runLoop_inv sch _ (fun st => st.metrics = metrics0)
      (fun st h => (annealStep_metrics_off ops ctx sch clock st).trans h) sch.max_steps _ rfl
  · exact runLoop_inv sch _ (fun st => st.metrics = metrics0)
      (fun st h => (annealBackStep_metrics ops ctx sch st).trans h) sch.max_steps _ rfl
  · exact runLoop_inv sch _ (fun st => st.metrics = metrics0)
      (fun st h => (annealPeekStep_metrics ops ctx sch st).trans h) sch.max_steps _ rfl

/-- Counterexample for C6 as stated: anneal_back with metrics enabled,
max_steps = 2 and one stale record in the log neither clears the log at
run start nor appends one record per step: the final log is still the
stale singleton, whose length 1 is not the number of steps 2. -/
theorem metrics_cardinality_cex :
    (annealBackRun egOps () ⟨1, 0, 2⟩ true 0 [2, 1, 3, 1] [egMetric]).metrics = [egMetric] ∧
    ([egMetric] : List Metrics).length ≠ (⟨1, 0, 2⟩ : LinearStepSchedule).max_steps := by
  constructor
  · norm_num [annealBackRun, runLoop, annealBackStep, initLoopSt, egOps, egMetric,
      LinearStepSchedule.should_continue, LinearStepSchedule.temperature, Step.progress,
      Step.zero, Step.update, metropolis_reject, is_sign_positive]
  · norm_num

/-- Claim C7 (amended): each Metrics record appended by anneal is a
post-decision snapshot: its next_energy equals the energy of the state
left after the accept/reject decision — which equals the record's own
(updated) current_energy field — and its delta field is that energy minus
the updated current energy, hence always 0, not the candidate-minus-
pre-step delta the acceptance test evaluated. -/
theorem metrics_record_post_decision (ops : AnnealOps γ σ τ ρ re) (ctx : γ)
    (sch : LinearStepSchedule) (clock : ℕ → ℚ)
    (state0 : σ) (rng0 : ρ) (metrics0 : List Metrics) :
    ∀ m ∈ (annealRun ops ctx sch true clock state0 rng0 metrics0).metrics,
      m.delta = 0 ∧ m.next_energy = m.current_energy := by
  refine runLoop_metrics_prop sch (annealStep ops ctx sch true clock)
    (EnergyInv ops ctx) (fun m => m.delta = 0 ∧ m.next_energy = m.current_energy)
    (annealStep_energyInv ops ctx sch true clock)
    (annealStep_metrics_prop ops ctx sch clock)
    sch.max_steps (initLoopSt ops ctx state0 rng0 (if true then [] else metrics0))
    rfl ?_
  intro m hm
  simp [initLoopSt] at hm

/-- Witness for C7: the single record of a concrete metrics-enabled run
satisfies the post-decision snapshot property. -/
theorem metrics_record_post_decision_witness :
    ({ best_energy := 0, current_energy := 2, next_energy := 2, delta := 0,
       accept := true, improvement := false, progress := 0, temperature := 1,
       step_duration := 0 } : Metrics).delta = 0 ∧
    ({ best_energy := 0, current_energy := 2, next_energy := 2, delta := 0,
       accept := true, improvement := false, progress := 0, temperature := 1,
       step_duration := 0 } : Metrics).next_energy =
      ({ best_energy := 0, current_energy := 2, next_energy := 2, delta := 0,
         accept := true, improvement := false, progress := 0, temperature := 1,
         step_duration := 0 } : Metrics).current_energy :=
  metrics_record_post_decision egOps () ⟨1, 0, 1⟩ (fun _ => 0) 0 [2, 1] [] _
    (by norm_num [annealRun, runLoop, annealStep, initLoopSt, egOps,
      LinearStepSchedule.should_continue, LinearStepSchedule.temperature,
      LinearStepSchedule.progress_0_1, Step.progress, Step.zero, Step.update,
      metropolis_reject, is_sign_positive])

/-- Counterexample for C7 as stated: an accepted step whose evaluated
energy delta is -5 (candidate energy -5 minus pre-step current energy 0)
is recorded with delta field 0, because the snapshot is computed after
current_energy has been updated; so the recorded delta is not the delta
just evaluated by the acceptance test. -/
theorem metrics_record_cex :
    (annealRun egOps () ⟨1, 0, 1⟩ true (fun _ => 0) 0 [-5, 0] []).metrics =
      [{ best_energy := -5, current_energy := -5, next_energy := -5, delta := 0,
         accept := true, improvement := true, progress := 0, temperature := 1,
         step_duration := 0 }] ∧
    (egOps.apply 0 () (-5)).map (fun s => egOps.energy s ()) = some (-5) ∧
    ((-5 : ℚ) - 0 ≠ 0) := by
  refine ⟨?_, by norm_num [egOps], by norm_num⟩
  norm_num [annealRun, runLoop, annealStep, initLoopSt, egOps,
    LinearStepSchedule.should_continue, LinearStepSchedule.temperature,
    LinearStepSchedule.progress_0_1, Step.progress, Step.zero, Step.update,
    metropolis_reject, is_sign_positive]

/-- Claim C5 (amended): for a fixed seed, the clone-strategy annealer is
deterministic up to the wall clock: two runs over the same initial state,
context, schedule and random stream return the same best state and metrics
sequences of equal length agreeing in every field except the wall-clock
step_duration; when the wall-clock readings also agree, the runs are
identical. -/
theorem fixed_seed_determinism (ops : AnnealOps γ σ τ ρ re) (ctx : γ)
    (sch : LinearStepSchedule) (metricsOn : Bool) (c1 c2 : ℕ → ℚ)
    (state0 : σ) (rng0 : ρ) (metrics0 : List Metrics) :
    anneal ops ctx sch metricsOn c1 state0 rng0 metrics0 =
      anneal ops ctx sch metricsOn c2 state0 rng0 metrics0 ∧
    (annealRun ops ctx sch metricsOn c1 state0 rng0 metrics0).metrics.map Metrics.core =
      (annealRun ops ctx sch metricsOn c2 state0 rng0 metrics0).metrics.map Metrics.core ∧
    (annealRun ops ctx sch metricsOn c1 state0 rng0 metrics0).metrics.length =
      (annealRun ops ctx sch metricsOn c2 state0 rng0 metrics0).metrics.length ∧
    (c1 = c2 →
      annealRun ops ctx sch metricsOn c1 state0 rng0 metrics0 =
        annealRun ops ctx sch metricsOn c2 state0 rng0 metrics0) := by
  have hrel := runLoop_rel sch (annealStep ops ctx sch metricsOn c1)
    (annealStep ops ctx sch metricsOn c2) SameExceptDuration (fun _ => True)
    (fun a b h => h.1.2.2.2.2.1)
    (fun a b h _ => annealStep_clock_corr ops ctx sch metricsOn c1 c2 a b h)
    (fun a _ => trivial)
    sch.max_steps (initLoopSt ops ctx state0 rng0 (if metricsOn then [] else metrics0))
    (initLoopSt ops ctx state0 rng0 (if metricsOn then [] else metrics0))
    ⟨⟨rfl, rfl, rfl, rfl, rfl, rfl⟩, rfl⟩ trivial
  refine ⟨hrel.1.2.1, hrel.2, ?_, ?_⟩
  · have hlen := congrArg List.length hrel.2
    simpa using hlen
  · intro h
    subst h
    rfl

/-- Counterexample for C5 as stated: two clone-strategy runs with the same
seed, initial state, context and schedule but different wall-clock
readings (which the seed does not control) return the same best state but
different metrics sequences, so "every field of every recorded Metrics
entry equal" fails. -/
theorem fixed_seed_metrics_cex :
    anneal egOps () ⟨1, 0, 1⟩ true (fun _ => 0) 0 [2, 1] [] =
      anneal egOps () ⟨1, 0, 1⟩ true (fun _ => 1) 0 [2, 1] [] ∧
    (annealRun egOps () ⟨1, 0, 1⟩ true (fun _ => 0) 0 [2, 1] []).metrics ≠
      (annealRun egOps () ⟨1, 0, 1⟩ true (fun _ => 1) 0 [2, 1] []).metrics := by
  constructor <;>
    norm_num [anneal, annealRun, runLoop, annealStep, initLoopSt, egOps,
      LinearStepSchedule.should_continue, LinearStepSchedule.temperature,
      LinearStepSchedule.progress_0_1, Step.progress, Step.zero, Step.update,
      metropolis_reject, is_sign_positive]

/-- Claim C4: the three run strategies implement one and the same per-step
acceptance policy: whenever peek_energy returns exactly the energy of the
state that apply would produce (agreeing on applicability), and
apply_with_restore agrees with apply while back exactly restores the
pre-move state, runs of anneal, anneal_back and anneal_peek from the same
initial state, context, schedule and random stream return the same best
state, whatever each run's metrics flag. -/
theorem strategies_equivalent (ops : AnnealOps γ σ τ ρ re) (ctx : γ)
    (sch : LinearStepSchedule) (mA mB mC : Bool) (clock : ℕ → ℚ)
    (state0 : σ) (rng0 : ρ) (metrics0 : List Metrics)
    (hpk : ∀ s op e, ops.peek_energy s ctx op e =
      (ops.apply s ctx op).map (fun s2 => ops.energy s2 ctx))
    (hr1 : ∀ s op, (ops.apply_with_restore s ctx op).map Prod.fst = ops.apply s ctx op)
    (hr2 : ∀ s op ns r, ops.apply_with_restore s ctx op = some (ns, r) →
      ops.back ns ctx r = s) :
    anneal ops ctx sch mA clock state0 rng0 metrics0 =
      anneal_back ops ctx sch mB state0 rng0 metrics0 ∧
    anneal ops ctx sch mA clock state0 rng0 metrics0 =
      anneal_peek ops ctx sch mC state0 rng0 metrics0 := by
  have hI : ∀ a, BestInv ops ctx a → BestInv ops ctx (annealStep ops ctx sch mA clock a) :=
    fun a h => (annealStep_bestInv ops ctx sch mA clock a h).1
  have hinit : SameCore (initLoopSt ops ctx state0 rng0 (if mA then [] else metrics0))
      (initLoopSt ops ctx state0 rng0 metrics0) := ⟨rfl, rfl, rfl, rfl, rfl, rfl⟩
  have hbinv : BestInv ops ctx (initLoopSt ops ctx state0 rng0 (if mA then [] else metrics0)) :=
    ⟨rfl, le_refl _⟩
  constructor
  · have hrel := runLoop_rel sch (annealStep ops ctx sch mA clock)
      (annealBackStep ops ctx sch) SameCore (BestInv ops ctx)
      (fun a b h => h.2.2.2.2.1)
      (fun a b h hb => annealStep_backStep_corr ops ctx sch mA clock hr1 hr2 a b h hb)
      hI sch.max_steps _ _ hinit hbinv
    exact hrel.2.1
  · have hrel := runLoop_rel sch (annealStep ops ctx sch mA clock)
      (annealPeekStep ops ctx sch) SameCore (BestInv ops ctx)
      (fun a b h => h.2.2.2.2.1)
      (fun a b h hb => annealStep_peekStep_corr ops ctx sch mA clock hpk a b h hb)
      hI sch.max_steps _ _ hinit hbinv
    exact hrel.2.1

/-- Witness for C4: the coherence hypotheses hold of the example instance,
and the three strategies return the same best state on a concrete
two-step run. -/
theorem strategies_equivalent_witness :
    anneal egOps () ⟨1, 0, 2⟩ true (fun _ => 0) 0 [2, 1, 3, 1] [] =
      anneal_back egOps () ⟨1, 0, 2⟩ false 0 [2, 1, 3, 1] [] ∧
    anneal egOps () ⟨1, 0, 2⟩ true (fun _ => 0) 0 [2, 1, 3, 1] [] =
      anneal_peek egOps () ⟨1, 0, 2⟩ false 0 [2, 1, 3, 1] [] :=
  strategies_equivalent egOps () ⟨1, 0, 2⟩ true false false (fun _ => 0) 0 [2, 1, 3, 1] []
    (by intro s op e; by_cases h : op = 0 <;> simp [egOps, h])
    (by intro s op; by_cases h : op = 0 <;> simp [egOps, h])
    (by
      intro s op ns r h
      by_cases hz : op = 0 <;> simp [egOps, hz, Prod.ext_iff] at h
      simp [egOps, ← h.2])

/-- Witness for C5: applying the determinism theorem at a concrete run
with equal clock streams, where the two runs coincide outright. -/
theorem fixed_seed_determinism_witness :
    anneal egOps () ⟨1, 0, 1⟩ true (fun _ => 0) 0 [2, 1] [] =
      anneal egOps () ⟨1, 0, 1⟩ true (fun _ => 0) 0 [2, 1] [] ∧
    annealRun egOps () ⟨1, 0, 1⟩ true (fun _ => 0) 0 [2, 1] [] =
      annealRun egOps () ⟨1, 0, 1⟩ true (fun _ => 0) 0 [2, 1] [] :=
  ⟨(fixed_seed_determinism egOps () ⟨1, 0, 1⟩ true (fun _ => 0) (fun _ => 0)
      0 [2, 1] []).1,
   (fixed_seed_determinism egOps () ⟨1, 0, 1⟩ true (fun _ => 0) (fun _ => 0)
      0 [2, 1] []).2.2.2 rfl⟩
